import Mathlib

/-!
Verification of the data-loading script `ingest.py` of the
WikipediaVandalismDetect repository.

The script walks a root data directory, loads newline-delimited JSON
(`.jsonl`) files from a list of language subdirectories into a nested
mapping `language → filename → records`, and audits which JSON keys are
present somewhere but missing from at least one record.

The embedding below models the filesystem explicitly (a finite map from
paths to file contents and from paths to directory listings), models a
file as the list of its lines, and models each line by how `json.loads`
treats it: it parses to a JSON value, it is empty/whitespace-only, or it
is otherwise malformed (the latter two raise a decode error).  Python
exceptions become an explicit error type; `print` calls are dropped as
pure observation.  Each invocation of the file loader inside
`load_all_data` is additionally recorded in a trace so that "loaded
exactly once" statements can be expressed.
-/

/-- Python exceptions that the script can raise, by class. -/
inductive Err where
  | fileNotFound
  | valueError
  | jsonDecode
  | notADirectory
  | isADirectory
  deriving DecidableEq, Repr

/-- A JSON value, as produced by `json.loads`. -/
inductive Json where
  | null
  | bool (b : Bool)
  | num (n : Int)
  | str (s : String)
  | arr (elems : List Json)
  | obj (fields : List (String × Json))

/-- One line of an input file, classified by how `json.loads` treats it:
a line whose content is a JSON value, an empty/whitespace-only line, or an
otherwise malformed line.  The latter two raise `json.JSONDecodeError`. -/
inductive JLine where
  | val (j : Json)
  | empty
  | malformed

/-- `json.loads` on one line: a valid line yields its JSON value, an empty
or malformed line raises a decode error. -/
def json_loads : JLine → Except Err Json
  | .val j => .ok j
  | .empty => .error .jsonDecode
  | .malformed => .error .jsonDecode

/-- Lookup in an insertion-ordered association list (a Python `dict`). -/
def dictGet {α β : Type} [DecidableEq α] (m : List (α × β)) (k : α) : Option β :=
  match m with
  | [] => none
  | kv :: rest => if kv.1 = k then some kv.2 else dictGet rest k

/-- `d[k] = v` on a Python `dict`: replace the value at an existing key in
place, otherwise append the new binding at the end. -/
def dictSet {α β : Type} [DecidableEq α] (m : List (α × β)) (k : α) (v : β) :
    List (α × β) :=
  match m with
  | [] => [(k, v)]
  | kv :: rest => if kv.1 = k then (k, v) :: rest else kv :: dictSet rest k v

/-- The filesystem the script runs against: regular files with their lines,
and directories with their listing in `os.listdir` enumeration order. -/
structure FS where
  files : List (String × List JLine)
  dirs : List (String × List String)

/-- `os.path.join` as the script uses it (plain relative components). -/
def pathJoin (a b : String) : String := a ++ "/" ++ b

/-- `os.path.exists`. -/
def FS.pathExists (fs : FS) (p : String) : Bool :=
  (dictGet fs.files p).isSome || (dictGet fs.dirs p).isSome

/-- `os.path.isdir`. -/
def FS.isDir (fs : FS) (p : String) : Bool :=
  (dictGet fs.dirs p).isSome

/-- `os.listdir`: the listing of a directory, `NotADirectoryError` on a
regular file, `FileNotFoundError` on a missing path. -/
def FS.listdir (fs : FS) (p : String) : Except Err (List String) :=
  match dictGet fs.dirs p with
  | some names => .ok names
  | none =>
      .error (if (dictGet fs.files p).isSome then .notADirectory else .fileNotFound)

/-- `open`: the lines of a regular file, `IsADirectoryError` on a
directory, `FileNotFoundError` on a missing path. -/
def FS.openFile (fs : FS) (p : String) : Except Err (List JLine) :=
  match dictGet fs.files p with
  | some lines => .ok lines
  | none =>
      .error (if (dictGet fs.dirs p).isSome then .isADirectory else .fileNotFound)

/-- Left-to-right effectful map over `Except`, as a Python comprehension
evaluates: the first raised exception propagates. -/
def mapMExcept {α β : Type} (f : α → Except Err β) : List α → Except Err (List β)
  | [] => .ok []
  | x :: xs =>
    match f x with
    | .error e => .error e
    | .ok y =>
      match mapMExcept f xs with
      | .error e => .error e
      | .ok ys => .ok (y :: ys)

/-- `load_json_file`: raises `FileNotFoundError` when a truthy filename
does not exist, then parses every line of the file with `json.loads` into
an ordered list of records. -/
def load_json_file (fs : FS) (json_filename : String) : Except Err (List Json) :=
  if json_filename ≠ "" ∧ fs.pathExists json_filename = false then
    .error .fileNotFound
  else
    match fs.openFile json_filename with
    | .error e => .error e
    | .ok lines => mapMExcept json_loads lines

/-- `fname.endswith('.jsonl')`: whether the suffix's characters are a
suffix of the string's characters. -/
def strEndsWith (s post : String) : Bool :=
  post.data.isSuffixOf s.data

/-- The cap test `n_files is None or k < n_files` of `load_dir`. -/
def underCap (n_files : Option Nat) (k : Nat) : Bool :=
  match n_files with
  | none => true
  | some n => decide (k < n)

/-- `load_dir`: raises `FileNotFoundError` when a truthy directory does not
exist, then builds the dict comprehension
`{fname: load_json_file(join(dir, fname)) for k, fname in
enumerate(listdir(dir)) if fname.endswith('.jsonl') and (n_files is None
or k < n_files)}` — note the cap `k` indexes the raw listing, before the
extension filter. -/
def load_dir (fs : FS) (data_dir : String) (n_files : Option Nat) :
    Except Err (List (String × List Json)) :=
  if data_dir ≠ "" ∧ fs.pathExists data_dir = false then
    .error .fileNotFound
  else
    match fs.listdir data_dir with
    | .error e => .error e
    | .ok names =>
      mapMExcept
        (fun kf =>
          match load_json_file fs (pathJoin data_dir kf.2) with
          | .error e => .error e
          | .ok recs => .ok (kf.2, recs))
        (names.enum.filter
          (fun kf => strEndsWith kf.2 ".jsonl" && underCap n_files kf.1))

/-- The nested mapping built by `load_all_data`:
language directory → (filename → ordered records). -/
abbrev LoadedData : Type := List (String × List (String × List Json))

/-- The `dir_lang_options` argument, a dynamically typed Python value:
`None`, a string, or a list of strings. -/
inductive PyOpts where
  | pynone
  | pystr (s : String)
  | pylist (l : List String)

/-- Python truthiness of a `PyOpts` value (`not dir_lang_options`). -/
def PyOpts.truthy : PyOpts → Bool
  | .pynone => false
  | .pystr s => decide (s ≠ "")
  | .pylist l => decide (l ≠ [])

/-- `isinstance(dir_lang_options, list)`. -/
def PyOpts.isList : PyOpts → Bool
  | .pylist _ => true
  | _ => false

/-- The underlying list of a `PyOpts.pylist` (only reached after the
`isinstance` guard). -/
def PyOpts.getList : PyOpts → List String
  | .pylist l => l
  | _ => []

/-- `if lang_dir not in loaded_data: loaded_data[lang_dir] = {}`. -/
def ensureKey (m : LoadedData) (k : String) : LoadedData :=
  if (dictGet m k).isSome then m else dictSet m k []

/-- One iteration of the `for lang_dir in dir_lang_options` loop of
`load_all_data`, threading the dict under construction and, as
instrumentation, the trace of names for which `load_dir` was invoked.
The redundant second `if lang_dir not in loaded_data` of the source is
kept as the second `ensureKey`. -/
def loadStep (fs : FS) (data_dir : String) (n_files : Option Nat)
    (st : LoadedData × List String) (lang_dir : String) :
    Except Err (LoadedData × List String) :=
  if fs.pathExists (pathJoin data_dir lang_dir) = true ∧
      fs.isDir (pathJoin data_dir lang_dir) = true then
    if ((dictGet (ensureKey (ensureKey st.1 lang_dir) lang_dir) lang_dir).getD
          []).length = 0 then
      match load_dir fs (pathJoin data_dir lang_dir) n_files with
      | .error e => .error e
      | .ok r =>
          .ok (dictSet (ensureKey (ensureKey st.1 lang_dir) lang_dir) lang_dir r,
               st.2 ++ [lang_dir])
    else .ok (ensureKey (ensureKey st.1 lang_dir) lang_dir, st.2)
  else .ok (ensureKey st.1 lang_dir, st.2)

/-- The `for` loop of `load_all_data`, left to right, propagating the
first raised exception. -/
def runLangs (fs : FS) (data_dir : String) (n_files : Option Nat) :
    List String → LoadedData × List String → Except Err (LoadedData × List String)
  | [], st => .ok st
  | lang :: rest, st =>
    match loadStep fs data_dir n_files st lang with
    | .error e => .error e
    | .ok st' => runLangs fs data_dir n_files rest st'

/-- `load_all_data`: raises `FileNotFoundError` when `data_dir` is falsy or
does not exist, `ValueError` when `dir_lang_options` is falsy or not a
list, and otherwise runs the per-language loop.  The second component of
the result is the instrumentation trace of `load_dir` invocations. -/
def load_all_data (fs : FS) (data_dir : String) (dir_lang_options : PyOpts)
    (n_files : Option Nat) : Except Err (LoadedData × List String) :=
  if data_dir = "" ∨ fs.pathExists data_dir = false then
    .error .fileNotFound
  else if dir_lang_options.truthy = false ∨ dir_lang_options.isList = false then
    .error .valueError
  else
    runLangs fs data_dir n_files dir_lang_options.getList ([], [])

/-- A record as `identify_missing_keys` consumes it: a Python dict, i.e.
the field list of a JSON object. -/
abbrev Entry : Type := List (String × Json)

/-- A loaded corpus as `identify_missing_keys` consumes it:
language → filename → records (each record a dict). -/
abbrev Corpus : Type := List (String × List (String × List Entry))

/-- `entry.keys()` as a set. -/
def keysOf (e : Entry) : Finset String :=
  (e.map Prod.fst).toFinset

/-- The first pass of `identify_missing_keys`: `set_of_keys`, the union of
keys over every record of every file of every language. -/
def setOfKeys (loaded_data : Corpus) : Finset String :=
  loaded_data.foldl
    (fun acc lf =>
      lf.2.foldl
        (fun acc₂ fe => fe.2.foldl (fun acc₃ entry => acc₃ ∪ keysOf entry) acc₂)
        acc)
    ∅

/-- The second pass of `identify_missing_keys`: `missing_keys`, accumulating
for every record `[key for key in set_of_keys if key not in entry.keys()]`. -/
def missingKeys (loaded_data : Corpus) : Finset String :=
  loaded_data.foldl
    (fun acc lf =>
      lf.2.foldl
        (fun acc₂ fe =>
          fe.2.foldl
            (fun acc₃ entry =>
              acc₃ ∪ (setOfKeys loaded_data).filter (fun k => k ∉ keysOf entry))
            acc₂)
        acc)
    ∅

/-- `identify_missing_keys`, returning `(set_of_keys, missing_keys)`. -/
def identify_missing_keys (loaded_data : Corpus) : Finset String × Finset String :=
  (setOfKeys loaded_data, missingKeys loaded_data)

/-- All records of a corpus, flattened across languages and files. -/
def allEntries (loaded_data : Corpus) : List Entry :=
  loaded_data.flatMap (fun lf => lf.2.flatMap (fun fe => fe.2))

/-! ### Concrete filesystems and corpora used as test inputs -/

/-- A directory listed as `[a.txt, b.jsonl]`: one non-`.jsonl` entry before
the only (valid) `.jsonl` file. -/
def fsCapMixed : FS :=
  { files := [("d/b.jsonl", [JLine.val Json.null])]
    dirs := [("d", ["a.txt", "b.jsonl"])] }

/-- A directory of two valid `.jsonl` files and nothing else. -/
def fsCapOnly : FS :=
  { files := [("dd/a.jsonl", [JLine.val Json.null]), ("dd/b.jsonl", [])]
    dirs := [("dd", ["a.jsonl", "b.jsonl"])] }

/-- A file whose single line is malformed JSON. -/
def fsMalformed : FS :=
  { files := [("f", [JLine.malformed])], dirs := [] }

/-- A file with one valid JSON line followed by an empty line. -/
def fsEmptyLine : FS :=
  { files := [("f", [JLine.val Json.null, JLine.empty])], dirs := [] }

/-- A file whose single line is the JSON value `null`. -/
def fsOneLine : FS :=
  { files := [("g", [JLine.val Json.null])], dirs := [] }

/-- An empty filesystem: no path exists. -/
def fsNothing : FS := { files := [], dirs := [] }

/-- A filesystem holding only an empty root directory `data`. -/
def fsRootOnly : FS := { files := [], dirs := [("data", [])] }

/-- Root `data` listing a subdirectory `en` which is itself empty, so
loading it yields an empty per-language mapping. -/
def fsEmptyLang : FS :=
  { files := [], dirs := [("data", ["en"]), ("data/en", [])] }

/-- Root `data` with one language directory `en` holding one valid
`.jsonl` file. -/
def fsOneLang : FS :=
  { files := [("data/en/a.jsonl", [JLine.val Json.null])]
    dirs := [("data", ["en"]), ("data/en", ["a.jsonl"])] }

/-- A directory whose only entry is not a `.jsonl` file. -/
def fsNoJsonl : FS := { files := [], dirs := [("d", ["x.txt"])] }

/-- A root `data` that exists but has no `fr` subdirectory. -/
def fsMissingLang : FS := { files := [], dirs := [("data", [])] }

/-- A corpus with one record having key `id` and one empty record. -/
def corpusIdGap : Corpus :=
  [("en", [("a.jsonl", [[("id", Json.null)], []])])]

/-! ### Helper lemmas -/

lemma dictGet_dictSet_self {α β : Type} [DecidableEq α] (m : List (α × β)) (k : α)
    (v : β) : dictGet (dictSet m k v) k = some v := by
  induction m with
  | nil => simp [dictGet, dictSet]
  | cons kv rest ih =>
      by_cases h : kv.1 = k
      · simp [dictGet, dictSet, h]
      · simp [dictGet, dictSet, h, ih]

lemma dictGet_dictSet_ne {α β : Type} [DecidableEq α] (m : List (α × β)) (k k' : α)
    (v : β) (h : k' ≠ k) : dictGet (dictSet m k v) k' = dictGet m k' := by
  induction m with
  | nil => simp [dictGet, dictSet, Ne.symm h]
  | cons kv rest ih =>
      by_cases hk : kv.1 = k
      · simp only [dictSet, if_pos hk, dictGet]
        rw [if_neg (Ne.symm h), if_neg (fun hh : kv.1 = k' => h (hh ▸ hk))]
      · simp only [dictSet, if_neg hk, dictGet, ih]

lemma json_loads_not_ok {l : JLine} (h : (json_loads l).isOk = false) :
    json_loads l = .error .jsonDecode := by
  cases l with
  | val j => simp [json_loads, Except.isOk, Except.toBool] at h
  | empty => rfl
  | malformed => rfl

lemma mapMExcept_error_of_bad {ls : List JLine}
    (h : ∃ l ∈ ls, (json_loads l).isOk = false) :
    mapMExcept json_loads ls = .error .jsonDecode := by
  induction ls with
  | nil => simp at h
  | cons x xs ih =>
      rcases h with ⟨l, hl, hbad⟩
      rcases List.mem_cons.1 hl with h1 | h2
      · subst h1
        rw [mapMExcept, json_loads_not_ok hbad]
      · cases hx : json_loads x with
        | error e =>
            have : e = .jsonDecode := by
              cases x <;> simp [json_loads] at hx <;> simp [hx]
            rw [mapMExcept, hx, this]
        | ok y =>
            rw [mapMExcept, hx, ih ⟨l, h2, hbad⟩]

lemma mapMExcept_map_val (js : List Json) :
    mapMExcept json_loads (js.map JLine.val) = .ok js := by
  induction js with
  | nil => rfl
  | cons j js ih => simp [mapMExcept, json_loads, ih]

lemma mapMExcept_ok_length {α β : Type} (f : α → Except Err β) (l : List α)
    (h : ∀ a ∈ l, (f a).isOk = true) :
    ∃ r, mapMExcept f l = .ok r ∧ r.length = l.length := by
  induction l with
  | nil => exact ⟨[], rfl, rfl⟩
  | cons x xs ih =>
      have hx : (f x).isOk = true := h x (List.mem_cons_self x xs)
      cases hfx : f x with
      | error e => rw [hfx] at hx; simp [Except.isOk, Except.toBool] at hx
      | ok y =>
          rcases ih (fun a ha => h a (List.mem_cons_of_mem x ha)) with ⟨r, hr, hlen⟩
          exact ⟨y :: r, by rw [mapMExcept, hfx, hr], by simp [hlen]⟩

lemma snd_mem_of_mem_enumFrom {α : Type} :
    ∀ {l : List α} {i : Nat} {p : Nat × α}, p ∈ List.enumFrom i l → p.2 ∈ l := by
  intro l
  induction l with
  | nil => intro i p h; simp [List.enumFrom] at h
  | cons x xs ih =>
      intro i p h
      rcases List.mem_cons.1 h with h1 | h2
      · subst h1; exact List.mem_cons_self x xs
      · exact List.mem_cons_of_mem x (ih h2)

lemma length_filter_enumFrom_lt {α : Type} :
    ∀ (l : List α) (i k : Nat),
      ((List.enumFrom i l).filter (fun p => decide (p.1 < k))).length
        = min (k - i) l.length := by
  intro l
  induction l with
  | nil => intro i k; simp [List.enumFrom]
  | cons x xs ih =>
      intro i k
      by_cases h : i < k
      · simp [List.enumFrom, List.filter_cons, h, ih (i + 1) k]
        omega
      · simp [List.enumFrom, List.filter_cons, h, ih (i + 1) k]
        omega

lemma mem_foldl_of_step {α : Type} (step : Finset String → α → Finset String)
    (P : α → String → Prop)
    (hstep : ∀ acc a x, x ∈ step acc a ↔ x ∈ acc ∨ P a x) :
    ∀ (l : List α) (init : Finset String) (x : String),
      x ∈ l.foldl step init ↔ x ∈ init ∨ ∃ a ∈ l, P a x := by
  intro l
  induction l with
  | nil => intro init x; simp
  | cons a l ih =>
      intro init x
      rw [List.foldl_cons, ih, hstep]
      constructor
      · rintro ((h | h) | ⟨b, hb, hP⟩)
        · exact Or.inl h
        · exact Or.inr ⟨a, List.mem_cons_self a l, h⟩
        · exact Or.inr ⟨b, List.mem_cons_of_mem a hb, hP⟩
      · rintro (h | ⟨b, hb, hP⟩)
        · exact Or.inl (Or.inl h)
        · rcases List.mem_cons.1 hb with h1 | h2
          · subst h1; exact Or.inl (Or.inr hP)
          · exact Or.inr ⟨b, h2, hP⟩

lemma mem_allEntries (c : Corpus) (e : Entry) :
    e ∈ allEntries c ↔ ∃ lf ∈ c, ∃ fe ∈ lf.2, e ∈ fe.2 := by
  simp [allEntries, List.mem_flatMap]

lemma mem_setOfKeys (c : Corpus) (x : String) :
    x ∈ setOfKeys c ↔ ∃ e ∈ allEntries c, x ∈ keysOf e := by
  have h2 := mem_foldl_of_step (fun acc₃ entry => acc₃ ∪ keysOf entry)
      (fun e y => y ∈ keysOf e) (fun _ _ _ => Finset.mem_union)
  have h4 := mem_foldl_of_step
      (fun acc₂ (fe : String × List Entry) =>
        fe.2.foldl (fun acc₃ entry => acc₃ ∪ keysOf entry) acc₂)
      (fun fe y => ∃ e ∈ fe.2, y ∈ keysOf e)
      (fun acc fe y => h2 fe.2 acc y)
  have h6 := mem_foldl_of_step
      (fun acc (lf : String × List (String × List Entry)) =>
        lf.2.foldl
          (fun acc₂ fe => fe.2.foldl (fun acc₃ entry => acc₃ ∪ keysOf entry) acc₂)
          acc)
      (fun lf y => ∃ fe ∈ lf.2, ∃ e ∈ fe.2, y ∈ keysOf e)
      (fun acc lf y => h4 lf.2 acc y)
  refine Iff.trans (h6 c ∅ x) ?_
  simp only [Finset.not_mem_empty, false_or, mem_allEntries]
  constructor
  · rintro ⟨lf, hlf, fe, hfe, e, he, hx⟩
    exact ⟨e, ⟨lf, hlf, fe, hfe, he⟩, hx⟩
  · rintro ⟨e, ⟨lf, hlf, fe, hfe, he⟩, hx⟩
    exact ⟨lf, hlf, fe, hfe, e, he, hx⟩

lemma mem_missingKeys (c : Corpus) (x : String) :
    x ∈ missingKeys c ↔
      x ∈ setOfKeys c ∧ ∃ e ∈ allEntries c, x ∉ keysOf e := by
  have h2 := mem_foldl_of_step
      (fun acc₃ entry => acc₃ ∪ (setOfKeys c).filter (fun k => k ∉ keysOf entry))
      (fun e y => y ∈ setOfKeys c ∧ y ∉ keysOf e)
      (fun acc e y => by
        rw [Finset.mem_union, Finset.mem_filter])
  have h4 := mem_foldl_of_step
      (fun acc₂ (fe : String × List Entry) =>
        fe.2.foldl
          (fun acc₃ entry =>
            acc₃ ∪ (setOfKeys c).filter (fun k => k ∉ keysOf entry))
          acc₂)
      (fun fe y => ∃ e ∈ fe.2, y ∈ setOfKeys c ∧ y ∉ keysOf e)
      (fun acc fe y => h2 fe.2 acc y)
  have h6 := mem_foldl_of_step
      (fun acc (lf : String × List (String × List Entry)) =>
        lf.2.foldl
          (fun acc₂ fe =>
            fe.2.foldl
              (fun acc₃ entry =>
                acc₃ ∪ (setOfKeys c).filter (fun k => k ∉ keysOf entry))
              acc₂)
          acc)
      (fun lf y => ∃ fe ∈ lf.2, ∃ e ∈ fe.2, y ∈ setOfKeys c ∧ y ∉ keysOf e)
      (fun acc lf y => h4 lf.2 acc y)
  refine Iff.trans (h6 c ∅ x) ?_
  simp only [Finset.not_mem_empty, false_or, mem_allEntries]
  constructor
  · rintro ⟨lf, hlf, fe, hfe, e, he, hs, hx⟩
    exact ⟨hs, e, ⟨lf, hlf, fe, hfe, he⟩, hx⟩
  · rintro ⟨hs, e, ⟨lf, hlf, fe, hfe, he⟩, hx⟩
    exact ⟨lf, hlf, fe, hfe, e, he, hs, hx⟩

lemma dictGet_ensureKey_self (m : LoadedData) (k : String) :
    dictGet (ensureKey m k) k = some ((dictGet m k).getD []) := by
  rw [ensureKey]
  cases hm : dictGet m k with
  | none => simp [hm, dictGet_dictSet_self]
  | some v => simp [hm]

lemma dictGet_ensureKey_ne (m : LoadedData) (k k' : String) (h : k' ≠ k) :
    dictGet (ensureKey m k) k' = dictGet m k' := by
  rw [ensureKey]
  by_cases hm : (dictGet m k).isSome
  · rw [if_pos hm]
  · rw [if_neg hm, dictGet_dictSet_ne _ _ _ _ h]

lemma ensureKey_ensureKey (m : LoadedData) (k : String) :
    ensureKey (ensureKey m k) k = ensureKey m k := by
  rw [ensureKey, if_pos]
  rw [dictGet_ensureKey_self]
  rfl

lemma isSome_dictSet_of_isSome (m : LoadedData) (k k' : String)
    (v : List (String × List Json)) (h : (dictGet m k').isSome = true) :
    (dictGet (dictSet m k v) k').isSome = true := by
  by_cases hk : k' = k
  · subst hk; rw [dictGet_dictSet_self]; rfl
  · rw [dictGet_dictSet_ne _ _ _ _ hk]; exact h

lemma isSome_ensureKey_of_isSome (m : LoadedData) (k k' : String)
    (h : (dictGet m k').isSome = true) :
    (dictGet (ensureKey m k) k').isSome = true := by
  rw [ensureKey]
  by_cases hm : (dictGet m k).isSome
  · rw [if_pos hm]; exact h
  · rw [if_neg hm]; exact isSome_dictSet_of_isSome _ _ _ _ h

lemma loadStep_other (fs : FS) (d : String) (nf : Option Nat)
    (st st' : LoadedData × List String) (lang name : String) (hne : lang ≠ name)
    (h : loadStep fs d nf st lang = .ok st') :
    dictGet st'.1 name = dictGet st.1 name ∧ st'.2.count name = st.2.count name := by
  have hget : ∀ (m : LoadedData), dictGet (ensureKey m lang) name = dictGet m name :=
    fun m => dictGet_ensureKey_ne m lang name (Ne.symm hne)
  rw [loadStep] at h
  by_cases hv : fs.pathExists (pathJoin d lang) = true ∧ fs.isDir (pathJoin d lang) = true
  · rw [if_pos hv] at h
    by_cases hlen :
        ((dictGet (ensureKey (ensureKey st.1 lang) lang) lang).getD []).length = 0
    · rw [if_pos hlen] at h
      cases hld : load_dir fs (pathJoin d lang) nf with
      | error e => rw [hld] at h; exact absurd h (by simp)
      | ok r =>
          rw [hld] at h
          have h' := Except.ok.inj h
          constructor
          · rw [← h', dictGet_dictSet_ne _ _ _ _ (Ne.symm hne), hget, hget]
          · rw [← h']
            simp [List.count_append, List.count_singleton', hne]
    · rw [if_neg hlen] at h
      have h' := Except.ok.inj h
      rw [← h', hget, hget]
      exact ⟨rfl, rfl⟩
  · rw [if_neg hv] at h
    have h' := Except.ok.inj h
    rw [← h', hget]
    exact ⟨rfl, rfl⟩

lemma loadStep_self_isSome (fs : FS) (d : String) (nf : Option Nat)
    (st st' : LoadedData × List String) (name : String)
    (h : loadStep fs d nf st name = .ok st') :
    (dictGet st'.1 name).isSome = true := by
  rw [loadStep] at h
  by_cases hv : fs.pathExists (pathJoin d name) = true ∧ fs.isDir (pathJoin d name) = true
  · rw [if_pos hv] at h
    by_cases hlen :
        ((dictGet (ensureKey (ensureKey st.1 name) name) name).getD []).length = 0
    · rw [if_pos hlen] at h
      cases hld : load_dir fs (pathJoin d name) nf with
      | error e => rw [hld] at h; exact absurd h (by simp)
      | ok r =>
          rw [hld] at h
          have h' := Except.ok.inj h
          rw [← h', dictGet_dictSet_self]
          rfl
    · rw [if_neg hlen] at h
      have h' := Except.ok.inj h
      rw [← h', ensureKey_ensureKey, dictGet_ensureKey_self]
      rfl
  · rw [if_neg hv] at h
    have h' := Except.ok.inj h
    rw [← h', dictGet_ensureKey_self]
    rfl

lemma loadStep_invalid (fs : FS) (d : String) (nf : Option Nat)
    (st : LoadedData × List String) (name : String)
    (hnv : ¬(fs.pathExists (pathJoin d name) = true ∧
             fs.isDir (pathJoin d name) = true)) :
    loadStep fs d nf st name = .ok (ensureKey st.1 name, st.2) := by
  rw [loadStep, if_neg hnv]

lemma loadStep_valid_empty (fs : FS) (d : String) (nf : Option Nat)
    (st st' : LoadedData × List String) (name : String)
    (hv : fs.pathExists (pathJoin d name) = true ∧
          fs.isDir (pathJoin d name) = true)
    (he : (dictGet st.1 name).getD [] = [])
    (h : loadStep fs d nf st name = .ok st') :
    ∃ r, load_dir fs (pathJoin d name) nf = .ok r ∧
      dictGet st'.1 name = some r ∧ st'.2 = st.2 ++ [name] := by
  rw [loadStep, if_pos hv, ensureKey_ensureKey, dictGet_ensureKey_self] at h
  rw [if_pos (by simp [he])] at h
  cases hld : load_dir fs (pathJoin d name) nf with
  | error e => rw [hld] at h; exact absurd h (by simp)
  | ok r =>
      rw [hld] at h
      have h' := Except.ok.inj h
      exact ⟨r, rfl, by rw [← h', dictGet_dictSet_self], by rw [← h']⟩

lemma loadStep_valid_nonempty (fs : FS) (d : String) (nf : Option Nat)
    (st st' : LoadedData × List String) (name : String) (v : List (String × List Json))
    (hv : fs.pathExists (pathJoin d name) = true ∧
          fs.isDir (pathJoin d name) = true)
    (hsome : dictGet st.1 name = some v) (hne : v ≠ [])
    (h : loadStep fs d nf st name = .ok st') :
    dictGet st'.1 name = some v ∧ st'.2 = st.2 := by
  rw [loadStep, if_pos hv, ensureKey_ensureKey, dictGet_ensureKey_self, hsome] at h
  rw [if_neg (by simpa [List.length_eq_zero] using hne)] at h
  have h' := Except.ok.inj h
  constructor
  · rw [← h', dictGet_ensureKey_self, hsome]
    rfl
  · rw [← h']

lemma runLangs_isSome_mono (fs : FS) (d : String) (nf : Option Nat) (name : String) :
    ∀ (langs : List String) (st st' : LoadedData × List String),
      runLangs fs d nf langs st = .ok st' →
      (dictGet st.1 name).isSome = true → (dictGet st'.1 name).isSome = true := by
  intro langs
  induction langs with
  | nil =>
      intro st st' h hs
      rw [runLangs] at h
      rw [← Except.ok.inj h]
      exact hs
  | cons lang rest ih =>
      intro st st' h hs
      rw [runLangs] at h
      cases hstep : loadStep fs d nf st lang with
      | error e => rw [hstep] at h; exact absurd h (by simp)
      | ok st₁ =>
          rw [hstep] at h
          by_cases hl : lang = name
          · subst hl
            exact ih st₁ st' h (loadStep_self_isSome fs d nf st st₁ lang hstep)
          · have := (loadStep_other fs d nf st st₁ lang name hl hstep).1
            exact ih st₁ st' h (this ▸ hs)

lemma runLangs_mem_isSome (fs : FS) (d : String) (nf : Option Nat) (name : String) :
    ∀ (langs : List String) (st st' : LoadedData × List String),
      runLangs fs d nf langs st = .ok st' → name ∈ langs →
      (dictGet st'.1 name).isSome = true := by
  intro langs
  induction langs with
  | nil => intro st st' _ hm; simp at hm
  | cons lang rest ih =>
      intro st st' h hm
      rw [runLangs] at h
      cases hstep : loadStep fs d nf st lang with
      | error e => rw [hstep] at h; exact absurd h (by simp)
      | ok st₁ =>
          rw [hstep] at h
          by_cases hl : lang = name
          · subst hl
            exact runLangs_isSome_mono fs d nf lang rest st₁ st' h
              (loadStep_self_isSome fs d nf st st₁ lang hstep)
          · rcases List.mem_cons.1 hm with h1 | h2
            · exact absurd h1.symm hl
            · exact ih st₁ st' h h2

lemma runLangs_invalid (fs : FS) (d : String) (nf : Option Nat) (name : String)
    (hnv : ¬(fs.pathExists (pathJoin d name) = true ∧
             fs.isDir (pathJoin d name) = true)) :
    ∀ (langs : List String) (st st' : LoadedData × List String),
      runLangs fs d nf langs st = .ok st' →
      (dictGet st.1 name = none ∨ dictGet st.1 name = some []) →
      st'.2.count name = st.2.count name ∧
      (dictGet st.1 name = some [] → dictGet st'.1 name = some []) ∧
      (name ∈ langs → dictGet st'.1 name = some []) := by
  intro langs
  induction langs with
  | nil =>
      intro st st' h hdisj
      rw [runLangs] at h
      rw [← Except.ok.inj h]
      exact ⟨rfl, fun hh => hh, fun hm => absurd hm (List.not_mem_nil name)⟩
  | cons lang rest ih =>
      intro st st' h hdisj
      rw [runLangs] at h
      cases hstep : loadStep fs d nf st lang with
      | error e => rw [hstep] at h; exact absurd h (by simp)
      | ok st₁ =>
          rw [hstep] at h
          by_cases hl : lang = name
          · subst hl
            rw [loadStep_invalid fs d nf st lang hnv] at hstep
            have h₁ := Except.ok.inj hstep
            have hget : dictGet st₁.1 lang = some [] := by
              rw [← h₁, dictGet_ensureKey_self]
              rcases hdisj with h0 | h0 <;> rw [h0] <;> rfl
            have htr : st₁.2 = st.2 := by rw [← h₁]
            rcases ih st₁ st' h (Or.inr hget) with ⟨hc, he, _⟩
            exact ⟨by rw [hc, htr], fun _ => he hget, fun _ => he hget⟩
          · rcases loadStep_other fs d nf st st₁ lang name hl hstep with ⟨hg, hc⟩
            rcases ih st₁ st' h (hg ▸ hdisj) with ⟨hc', he', hm'⟩
            refine ⟨by rw [hc', hc], fun hh => he' (hg ▸ hh), fun hm => ?_⟩
            rcases List.mem_cons.1 hm with h1 | h2
            · exact absurd h1.symm hl
            · exact hm' h2

lemma runLangs_valid_entry (fs : FS) (d : String) (nf : Option Nat) (name : String)
    (hv : fs.pathExists (pathJoin d name) = true ∧
          fs.isDir (pathJoin d name) = true) :
    ∀ (langs : List String) (st st' : LoadedData × List String),
      runLangs fs d nf langs st = .ok st' →
      ((dictGet st.1 name = none ∨ dictGet st.1 name = some []) ∨
        (∃ r, load_dir fs (pathJoin d name) nf = .ok r ∧ dictGet st.1 name = some r)) →
      (name ∈ langs ∨
        (∃ r, load_dir fs (pathJoin d name) nf = .ok r ∧ dictGet st.1 name = some r)) →
      ∃ r, load_dir fs (pathJoin d name) nf = .ok r ∧ dictGet st'.1 name = some r := by
  intro langs
  induction langs with
  | nil =>
      intro st st' h _ hstart
      rw [runLangs] at h
      rw [← Except.ok.inj h]
      rcases hstart with hm | hr
      · exact absurd hm (List.not_mem_nil name)
      · exact hr
  | cons lang rest ih =>
      intro st st' h hinv hstart
      rw [runLangs] at h
      cases hstep : loadStep fs d nf st lang with
      | error e => rw [hstep] at h; exact absurd h (by simp)
      | ok st₁ =>
          rw [hstep] at h
          by_cases hl : lang = name
          · subst hl
            have hpost : ∃ r, load_dir fs (pathJoin d lang) nf = .ok r ∧
                dictGet st₁.1 lang = some r := by
              rcases hinv with hee | ⟨r, hld, hr⟩
              · have he : (dictGet st.1 lang).getD [] = [] := by
                  rcases hee with h0 | h0 <;> rw [h0] <;> rfl
                rcases loadStep_valid_empty fs d nf st st₁ lang hv he hstep with
                  ⟨r, hld, hr, _⟩
                exact ⟨r, hld, hr⟩
              · by_cases hre : r = []
                · subst hre
                  rcases loadStep_valid_empty fs d nf st st₁ lang hv
                      (by rw [hr]; rfl) hstep with ⟨r', hld', hr', _⟩
                  exact ⟨r', hld', hr'⟩
                · rcases loadStep_valid_nonempty fs d nf st st₁ lang r hv hr hre
                      hstep with ⟨hg, _⟩
                  exact ⟨r, hld, hg⟩
            exact ih st₁ st' h (Or.inr hpost) (Or.inr hpost)
          · rcases loadStep_other fs d nf st st₁ lang name hl hstep with ⟨hg, _⟩
            refine ih st₁ st' h (hg ▸ hinv) ?_
            rcases hstart with hm | hr
            · rcases List.mem_cons.1 hm with h1 | h2
              · exact absurd h1.symm hl
              · exact Or.inl h2
            · exact Or.inr (hg ▸ hr)

lemma runLangs_valid_count (fs : FS) (d : String) (nf : Option Nat) (name : String)
    (hv : fs.pathExists (pathJoin d name) = true ∧
          fs.isDir (pathJoin d name) = true)
    (hne : ∀ r, load_dir fs (pathJoin d name) nf = .ok r → r ≠ []) :
    ∀ (langs : List String) (st st' : LoadedData × List String),
      runLangs fs d nf langs st = .ok st' →
      ((st.2.count name = 0 ∧
          (dictGet st.1 name = none ∨ dictGet st.1 name = some [])) ∨
        (st.2.count name = 1 ∧
          ∃ r, load_dir fs (pathJoin d name) nf = .ok r ∧
            dictGet st.1 name = some r)) →
      st'.2.count name ≤ 1 := by
  intro langs
  induction langs with
  | nil =>
      intro st st' h hQ
      rw [runLangs] at h
      rw [← Except.ok.inj h]
      rcases hQ with ⟨hc, _⟩ | ⟨hc, _⟩ <;> omega
  | cons lang rest ih =>
      intro st st' h hQ
      rw [runLangs] at h
      cases hstep : loadStep fs d nf st lang with
      | error e => rw [hstep] at h; exact absurd h (by simp)
      | ok st₁ =>
          rw [hstep] at h
          by_cases hl : lang = name
          · subst hl
            rcases hQ with ⟨hc, hee⟩ | ⟨hc, r, hld, hr⟩
            · have he : (dictGet st.1 lang).getD [] = [] := by
                rcases hee with h0 | h0 <;> rw [h0] <;> rfl
              rcases loadStep_valid_empty fs d nf st st₁ lang hv he hstep with
                ⟨r, hld, hr, htr⟩
              refine ih st₁ st' h (Or.inr ⟨?_, r, hld, hr⟩)
              rw [htr]
              simp [List.count_append, hc]
            · rcases loadStep_valid_nonempty fs d nf st st₁ lang r hv hr
                  (hne r hld) hstep with ⟨hg, htr⟩
              exact ih st₁ st' h (Or.inr ⟨htr ▸ hc, r, hld, hg⟩)
          · rcases loadStep_other fs d nf st st₁ lang name hl hstep with ⟨hg, hc⟩
            refine ih st₁ st' h ?_
            rcases hQ with ⟨hc0, hee⟩ | ⟨hc1, r, hld, hr⟩
            · exact Or.inl ⟨by rw [hc, hc0], hg ▸ hee⟩
            · exact Or.inr ⟨by rw [hc, hc1], r, hld, hg ▸ hr⟩

lemma load_all_data_ok_runLangs (fs : FS) (d : String) (opts : PyOpts)
    (nf : Option Nat) (res : LoadedData × List String)
    (h : load_all_data fs d opts nf = .ok res) :
    runLangs fs d nf opts.getList ([], []) = .ok res := by
  by_cases h1 : d = "" ∨ fs.pathExists d = false
  · rw [load_all_data, if_pos h1] at h
    exact absurd h (by simp)
  · by_cases h2 : opts.truthy = false ∨ opts.isList = false
    · rw [load_all_data, if_neg h1, if_pos h2] at h
      exact absurd h (by simp)
    · rw [load_all_data, if_neg h1, if_neg h2] at h
      exact h

/-! ### Claims -/

/-- C1: for every loaded corpus, the missing-keys set returned by
`identify_missing_keys` is exactly the set of keys that appear on some
record (are in the global key union) and are absent from at least one
record; the missing-keys set is a subset of the all-keys set; and whenever
one record lacks key `"id"` while another record has it, `"id"` is in both
returned sets. -/
theorem identify_missing_keys_correct (c : Corpus) :
    (∀ k, k ∈ (identify_missing_keys c).2 ↔
        k ∈ (identify_missing_keys c).1 ∧ ∃ e ∈ allEntries c, k ∉ keysOf e) ∧
    (identify_missing_keys c).2 ⊆ (identify_missing_keys c).1 ∧
    (∀ e₁ e₂, e₁ ∈ allEntries c → e₂ ∈ allEntries c →
      "id" ∉ keysOf e₁ → "id" ∈ keysOf e₂ →
      "id" ∈ (identify_missing_keys c).1 ∧ "id" ∈ (identify_missing_keys c).2) := by
  refine ⟨fun k => mem_missingKeys c k, ?_, ?_⟩
  · intro k hk
    exact ((mem_missingKeys c k).1 hk).1
  · intro e₁ e₂ h1 h2 hn hy
    have hall : "id" ∈ setOfKeys c := (mem_setOfKeys c "id").2 ⟨e₂, h2, hy⟩
    exact ⟨hall, (mem_missingKeys c "id").2 ⟨hall, e₁, h1, hn⟩⟩

/-- C1 witness: on a corpus whose records are `{"id": null}` and `{}`,
`"id"` lands in both returned sets. -/
theorem identify_missing_keys_correct_witness :
    "id" ∈ (identify_missing_keys corpusIdGap).1 ∧
      "id" ∈ (identify_missing_keys corpusIdGap).2 :=
  (identify_missing_keys_correct corpusIdGap).2.2 [] [("id", Json.null)]
    (by rw [show allEntries corpusIdGap = [[("id", Json.null)], []] from rfl]
        exact List.mem_cons_of_mem _ (List.mem_cons_self _ _))
    (by rw [show allEntries corpusIdGap = [[("id", Json.null)], []] from rfl]
        exact List.mem_cons_self _ _)
    (by decide) (by decide)

/-- C3: for every existing file in which some line is not valid JSON,
`load_json_file` raises the propagated JSON decode error; no record list
is returned. -/
theorem load_json_file_bad_line (fs : FS) (f : String) (lines : List JLine)
    (hf : dictGet fs.files f = some lines)
    (hbad : ∃ l ∈ lines, (json_loads l).isOk = false) :
    load_json_file fs f = .error .jsonDecode := by
  have hex : fs.pathExists f = true := by
    rw [FS.pathExists, hf]
    rfl
  have hop : fs.openFile f = .ok lines := by rw [FS.openFile, hf]
  have key : load_json_file fs f = mapMExcept json_loads lines := by
    rw [load_json_file,
      if_neg (fun hcon => by rw [hex] at hcon; exact absurd hcon.2 (by simp)), hop]
  rw [key]
  exact mapMExcept_error_of_bad hbad

/-- C3 witness: a file whose only line is malformed fails with the decode
error. -/
theorem load_json_file_bad_line_witness :
    load_json_file fsMalformed "f" = Except.error Err.jsonDecode :=
  load_json_file_bad_line fsMalformed "f" [JLine.malformed] rfl
    ⟨JLine.malformed, List.mem_cons_self _ _, rfl⟩

/-- C4 counterexample: a file whose lines are `null` and an empty line.
The claim predicts success with the single record `null` (empty lines
contributing nothing); the code passes the empty line to `json.loads`,
which raises, so loading fails. -/
theorem load_json_file_empty_line_fails :
    load_json_file fsEmptyLine "f" = Except.error Err.jsonDecode ∧
      load_json_file fsEmptyLine "f" ≠ Except.ok [Json.null] := by
  refine ⟨rfl, ?_⟩
  rw [show load_json_file fsEmptyLine "f" = Except.error Err.jsonDecode from rfl]
  simp

/-- C4 amended: `load_json_file` parses every line of an existing file —
including empty ones — with `json.loads`; when every line is valid JSON it
returns exactly one record per line, in file order.  (An empty line is not
skipped: it makes the parse fail, as the counterexample shows.) -/
theorem load_json_file_all_valid (fs : FS) (f : String) (js : List Json)
    (hf : dictGet fs.files f = some (js.map JLine.val)) :
    load_json_file fs f = .ok js := by
  have hex : fs.pathExists f = true := by
    rw [FS.pathExists, hf]
    rfl
  have hop : fs.openFile f = .ok (js.map JLine.val) := by rw [FS.openFile, hf]
  have key : load_json_file fs f = mapMExcept json_loads (js.map JLine.val) := by
    rw [load_json_file,
      if_neg (fun hcon => by rw [hex] at hcon; exact absurd hcon.2 (by simp)), hop]
  rw [key]
  exact mapMExcept_map_val js

/-- C4 witness: a one-line file of valid JSON loads to that one record. -/
theorem load_json_file_all_valid_witness :
    load_json_file fsOneLine "g" = Except.ok [Json.null] :=
  load_json_file_all_valid fsOneLine "g" [Json.null] rfl

/-- C5: when the root directory path is empty (falsy) or does not exist,
`load_all_data` raises `FileNotFoundError` and never returns a mapping. -/
theorem load_all_data_missing_root (fs : FS) (d : String) (opts : PyOpts)
    (nf : Option Nat) (h : d = "" ∨ fs.pathExists d = false) :
    load_all_data fs d opts nf = .error .fileNotFound ∧
      ∀ res, load_all_data fs d opts nf ≠ .ok res := by
  have h1 : load_all_data fs d opts nf = .error .fileNotFound := by
    rw [load_all_data, if_pos h]
  exact ⟨h1, fun res hcon => by rw [h1] at hcon; exact Except.noConfusion hcon⟩

/-- C5 witness: a nonexistent root fails with `FileNotFoundError`. -/
theorem load_all_data_missing_root_witness :
    load_all_data fsNothing "nope" PyOpts.pynone none
      = Except.error Err.fileNotFound :=
  (load_all_data_missing_root fsNothing "nope" PyOpts.pynone none (Or.inr rfl)).1

/-- C6: with an existing root directory, a non-list `dir_lang_options`
(e.g. a single string) makes `load_all_data` raise `ValueError` before
loading anything. -/
theorem load_all_data_not_list (fs : FS) (d : String) (opts : PyOpts)
    (nf : Option Nat) (hd : ¬(d = "" ∨ fs.pathExists d = false))
    (ho : opts.isList = false) :
    load_all_data fs d opts nf = .error .valueError := by
  rw [load_all_data, if_neg hd, if_pos (Or.inr ho)]

/-- C6 witness: a single string as `dir_lang_options` raises `ValueError`. -/
theorem load_all_data_not_list_witness :
    load_all_data fsRootOnly "data" (PyOpts.pystr "en") none
      = Except.error Err.valueError :=
  load_all_data_not_list fsRootOnly "data" (PyOpts.pystr "en") none
    (by decide) rfl

/-- C7 counterexample: with an existing root and an empty subdirectory
list, `load_all_data` raises `ValueError` (the falsy-check fires first),
not the `FileNotFoundError` the claim states. -/
theorem load_all_data_empty_list_not_fnf :
    load_all_data fsRootOnly "data" (PyOpts.pylist []) none
        = Except.error Err.valueError ∧
      load_all_data fsRootOnly "data" (PyOpts.pylist []) none
        ≠ Except.error Err.fileNotFound := by
  refine ⟨rfl, ?_⟩
  rw [show load_all_data fsRootOnly "data" (PyOpts.pylist []) none
      = Except.error Err.valueError from rfl]
  simp

/-- C7 amended: with an existing root directory, an empty subdirectory
list makes `load_all_data` fail with the configuration-error condition
(`ValueError`), because an empty list is falsy. -/
theorem load_all_data_empty_list (fs : FS) (d : String) (nf : Option Nat)
    (hd : ¬(d = "" ∨ fs.pathExists d = false)) :
    load_all_data fs d (PyOpts.pylist []) nf = .error .valueError := by
  have ht : (PyOpts.pylist ([] : List String)).truthy = false := rfl
  rw [load_all_data, if_neg hd, if_pos (Or.inl ht)]

/-- C7 witness: the empty list raises `ValueError` on a concrete root. -/
theorem load_all_data_empty_list_witness :
    load_all_data fsRootOnly "data" (PyOpts.pylist []) (some 1)
      = Except.error Err.valueError :=
  load_all_data_empty_list fsRootOnly "data" (some 1) (by decide)

/-- C10: for every existing directory with no entry ending in `.jsonl`,
`load_dir` returns the empty mapping rather than failing. -/
theorem load_dir_no_jsonl (fs : FS) (d : String) (names : List String)
    (nf : Option Nat) (hdir : dictGet fs.dirs d = some names)
    (hnone : ∀ f ∈ names, strEndsWith f ".jsonl" = false) :
    load_dir fs d nf = .ok [] := by
  have hex : fs.pathExists d = true := by
    rw [FS.pathExists, hdir]
    simp
  have hls : fs.listdir d = .ok names := by rw [FS.listdir, hdir]
  have key : load_dir fs d nf
      = mapMExcept
          (fun kf =>
            match load_json_file fs (pathJoin d kf.2) with
            | .error e => .error e
            | .ok recs => .ok (kf.2, recs))
          (names.enum.filter
            (fun kf => strEndsWith kf.2 ".jsonl" && underCap nf kf.1)) := by
    rw [load_dir,
      if_neg (fun hcon => by rw [hex] at hcon; exact absurd hcon.2 (by simp)), hls]
  have hfil : names.enum.filter
      (fun kf => strEndsWith kf.2 ".jsonl" && underCap nf kf.1) = [] := by
    rw [List.filter_eq_nil_iff]
    intro kf hkf
    rw [hnone kf.2 (snd_mem_of_mem_enumFrom hkf)]
    simp
  rw [key, hfil]
  rfl

/-- C10 witness: a directory listing only `x.txt` loads to the empty
mapping. -/
theorem load_dir_no_jsonl_witness :
    load_dir fsNoJsonl "d" none = Except.ok [] :=
  load_dir_no_jsonl fsNoJsonl "d" ["x.txt"] none rfl (by decide)

/-- C2 counterexample: directory `d` lists `[a.txt, b.jsonl]`, so it
contains N = 1 valid `.jsonl` file; with cap k = 1 the claim predicts one
entry, but the cap is consumed by the raw enumeration index of `a.txt`
(index 0), `b.jsonl` sits at index 1 ≥ 1, and the result is empty. -/
theorem load_dir_cap_mixed_counterexample :
    (load_dir fsCapMixed "d" (some 1)).map List.length = Except.ok 0 ∧
      (Except.ok 0 : Except Err Nat) ≠ Except.ok 1 := by
  refine ⟨rfl, ?_⟩
  simp

/-- C2 amended: for every existing directory whose listing consists solely
of `.jsonl` files, each loading successfully, and every cap k ≤ N (N the
number of files), `load_dir` with `n_files = k` returns exactly k entries.
(When non-`.jsonl` entries are present the cap applies to raw enumeration
indices and fewer than k entries can be returned, as the counterexample
shows.) -/
theorem load_dir_cap_all_jsonl (fs : FS) (d : String) (names : List String)
    (k : Nat) (hdir : dictGet fs.dirs d = some names)
    (hall : ∀ f ∈ names, strEndsWith f ".jsonl" = true)
    (hvalid : ∀ f ∈ names, (load_json_file fs (pathJoin d f)).isOk = true)
    (hk : k ≤ names.length) :
    ∃ m, load_dir fs d (some k) = .ok m ∧ m.length = k := by
  have hex : fs.pathExists d = true := by
    rw [FS.pathExists, hdir]
    simp
  have hls : fs.listdir d = .ok names := by rw [FS.listdir, hdir]
  have key : load_dir fs d (some k)
      = mapMExcept
          (fun kf =>
            match load_json_file fs (pathJoin d kf.2) with
            | .error e => .error e
            | .ok recs => .ok (kf.2, recs))
          (names.enum.filter
            (fun kf => strEndsWith kf.2 ".jsonl" && underCap (some k) kf.1)) := by
    rw [load_dir,
      if_neg (fun hcon => by rw [hex] at hcon; exact absurd hcon.2 (by simp)), hls]
  have hfil : names.enum.filter
        (fun kf => strEndsWith kf.2 ".jsonl" && underCap (some k) kf.1)
      = names.enum.filter (fun kf => decide (kf.1 < k)) := by
    apply List.filter_congr
    intro kf hkf
    rw [hall kf.2 (snd_mem_of_mem_enumFrom hkf)]
    rfl
  have hlen : (names.enum.filter (fun kf => decide (kf.1 < k))).length = k := by
    rw [show names.enum = List.enumFrom 0 names from rfl,
      length_filter_enumFrom_lt names 0 k]
    omega
  have hok : ∀ kf ∈ names.enum.filter (fun kf => decide (kf.1 < k)),
      ((fun kf : Nat × String =>
          match load_json_file fs (pathJoin d kf.2) with
          | Except.error e => Except.error e
          | Except.ok recs => Except.ok (kf.2, recs)) kf).isOk = true := by
    intro kf hkf
    have hm : kf.2 ∈ names := snd_mem_of_mem_enumFrom (List.mem_of_mem_filter hkf)
    show (match load_json_file fs (pathJoin d kf.2) with
          | Except.error e => Except.error e
          | Except.ok recs => Except.ok (kf.2, recs)).isOk = true
    cases hld : load_json_file fs (pathJoin d kf.2) with
    | error e =>
        have h2 := hvalid kf.2 hm
        rw [hld] at h2
        exact Bool.noConfusion h2
    | ok recs => rfl
  rcases mapMExcept_ok_length _ _ hok with ⟨r, hr, hlen'⟩
  refine ⟨r, ?_, by rw [hlen', hlen]⟩
  rw [key, hfil]
  exact hr

/-- C2 witness: a directory of exactly two valid `.jsonl` files with cap 1
yields exactly one entry. -/
theorem load_dir_cap_all_jsonl_witness :
    ∃ m, load_dir fsCapOnly "dd" (some 1) = Except.ok m ∧ m.length = 1 :=
  load_dir_cap_all_jsonl fsCapOnly "dd" ["a.jsonl", "b.jsonl"] 1 rfl
    (by decide) (by decide) (by decide)

/-- C8: for every successful `load_all_data` run, the returned mapping has
an entry for every name of `dir_lang_options`; a name whose subdirectory
does not exist or is not a directory is mapped to the empty mapping and
is never passed to the File Loader (the run continues past it). -/
theorem load_all_data_entry_every_name (fs : FS) (d : String)
    (opts : List String) (nf : Option Nat) (m : LoadedData) (t : List String)
    (name : String)
    (h : load_all_data fs d (PyOpts.pylist opts) nf = .ok (m, t))
    (hmem : name ∈ opts) :
    (dictGet m name).isSome = true ∧
      (¬(fs.pathExists (pathJoin d name) = true ∧
          fs.isDir (pathJoin d name) = true) →
        dictGet m name = some [] ∧ name ∉ t) := by
  have hrun := load_all_data_ok_runLangs fs d (PyOpts.pylist opts) nf (m, t) h
  constructor
  · exact runLangs_mem_isSome fs d nf name opts ([], []) (m, t) hrun hmem
  · intro hnv
    rcases runLangs_invalid fs d nf name hnv opts ([], []) (m, t) hrun
        (Or.inl rfl) with ⟨hc, _, hm'⟩
    refine ⟨hm' hmem, List.count_eq_zero.1 ?_⟩
    rw [hc]
    rfl

/-- C8 witness: with only root `data` present and `dir_lang_options =
["fr"]`, the run succeeds, `fr` is mapped to the empty mapping, and the
loader trace is empty. -/
theorem load_all_data_entry_every_name_witness :
    dictGet [(("fr" : String), ([] : List (String × List Json)))] "fr"
        = some [] ∧ "fr" ∉ ([] : List String) :=
  (load_all_data_entry_every_name fsMissingLang "data" ["fr"] none
      [("fr", [])] [] "fr" rfl (by decide)).2 (by decide)

/-- C9 counterexample: subdirectory `en` exists but holds no `.jsonl`
files, so its first load yields the empty mapping; with
`dir_lang_options = ["en", "en"]` the emptiness test `not
len(loaded_data[lang_dir])` fires again and the File Loader runs twice
for `en`, against the claim's "at most once". -/
theorem load_all_data_reloads_empty_lang :
    (load_all_data fsEmptyLang "data" (PyOpts.pylist ["en", "en"]) none).map
        (fun st => st.2.count "en") = Except.ok 2 ∧ ¬(2 ≤ 1) := by
  exact ⟨rfl, by omega⟩

/-- C9 amended: on a successful run, for every name of `dir_lang_options`
whose subdirectory exists and is a directory, the final mapping entry for
that name equals the (deterministic) File Loader result for it; and
provided that result is non-empty, the File Loader is invoked at most
once for that name — when the result is empty, later duplicate
occurrences re-invoke the loader, as the counterexample shows, though the
entry is unchanged. -/
theorem load_all_data_loads_once (fs : FS) (d : String) (opts : List String)
    (nf : Option Nat) (m : LoadedData) (t : List String) (name : String)
    (h : load_all_data fs d (PyOpts.pylist opts) nf = .ok (m, t))
    (hmem : name ∈ opts)
    (hv : fs.pathExists (pathJoin d name) = true ∧
          fs.isDir (pathJoin d name) = true) :
    (∃ r, load_dir fs (pathJoin d name) nf = .ok r ∧ dictGet m name = some r) ∧
      ((∀ r, load_dir fs (pathJoin d name) nf = .ok r → r ≠ []) →
        t.count name ≤ 1) := by
  have hrun := load_all_data_ok_runLangs fs d (PyOpts.pylist opts) nf (m, t) h
  constructor
  · exact runLangs_valid_entry fs d nf name hv opts ([], []) (m, t) hrun
      (Or.inl (Or.inl rfl)) (Or.inl hmem)
  · intro hne
    exact runLangs_valid_count fs d nf name hv hne opts ([], []) (m, t) hrun
      (Or.inl ⟨rfl, Or.inl rfl⟩)

/-- C9 witness: one language directory with one valid non-empty `.jsonl`
file; the entry equals the loader result and the loader ran once. -/
theorem load_all_data_loads_once_witness :
    (∃ r, load_dir fsOneLang (pathJoin "data" "en") (some 1) = Except.ok r ∧
        dictGet [(("en" : String), [(("a.jsonl" : String), [Json.null])])] "en"
          = some r) ∧
      ((∀ r, load_dir fsOneLang (pathJoin "data" "en") (some 1) = Except.ok r →
          r ≠ []) →
        (["en"] : List String).count "en" ≤ 1) :=
  load_all_data_loads_once fsOneLang "data" ["en"] (some 1)
    [("en", [("a.jsonl", [Json.null])])] ["en"] "en" rfl (by decide) (by decide)
